import Mathlib

/-!
# Watchdog timer of `logmon.cpp`

A shallow embedding of `src/main/jni/logmon/logmon.cpp`:

* the two `volatile bool` flags `running` and `sw`, the reference clock
  `state_tv.start_time` and the loop threads created by `pthread_create`
  form an explicit `State`;
* `start_ticks`, `stop_ticks` and `main_test` are functions on that state;
* `_fire_isr_timer` is a step function on the program counter of one loop
  thread, so that the interleavings of the caller with the loop thread are
  the sequences of `Action`s;
* `_micros64tv` is evaluated in IEEE-754 binary64 arithmetic (round to
  nearest, ties to even), carried out exactly on integers.

Logging (`LOGI`) writes to an output sink and reads nothing back; it is left
out of the state.
-/

set_option maxRecDepth 100000

namespace Logmon

/-! ## Binary64 arithmetic -/

/-- A finite binary floating-point number `m * 2 ^ e`. -/
structure Dyadic where
  m : Int
  e : Int
deriving DecidableEq, Repr

namespace Dyadic

/-- The rational number a `Dyadic` stands for. -/
def toRat (a : Dyadic) : ℚ := (a.m : ℚ) * (2 : ℚ) ^ a.e

/-- An integer, before any rounding. -/
def ofInt (n : Int) : Dyadic := ⟨n, 0⟩

/-- Exact product. -/
def mul (a b : Dyadic) : Dyadic := ⟨a.m * b.m, a.e + b.e⟩

/-- Exact sum, on the finer of the two exponents. -/
def add (a b : Dyadic) : Dyadic :=
  let e := min a.e b.e
  ⟨a.m * 2 ^ (a.e - e).toNat + b.m * 2 ^ (b.e - e).toNat, e⟩

/-- Exact negation. -/
def neg (a : Dyadic) : Dyadic := ⟨-a.m, a.e⟩

/-- Exact difference. -/
def sub (a b : Dyadic) : Dyadic := add a (neg b)

/-- Number of binary digits of `n`, by repeated halving. -/
def bitLengthAux : Nat → Nat → Nat
  | 0, _ => 0
  | fuel + 1, n => if n = 0 then 0 else bitLengthAux fuel (n / 2) + 1

/-- Number of binary digits of `n` (`0` for `n = 0`). -/
def bitLength (n : Nat) : Nat := bitLengthAux n n

/-- The integer nearest to `m / 2 ^ k`, ties going to the even one. -/
def roundShift (m : Int) (k : Nat) : Int :=
  let q := m / 2 ^ k
  let r := m % 2 ^ k
  if 2 * r < 2 ^ k then q
  else if 2 ^ k < 2 * r then q + 1
  else if q % 2 = 0 then q else q + 1

/-- Rounding of an exact result to binary64: at most 53 significant bits and
no bit below `2 ^ (-1074)`, round to nearest, ties to even.  Every value that
occurs in `_micros64tv` for 64-bit `long` fields is far below `2 ^ 1024`, so
overflow to infinity does not arise. -/
def round53 (a : Dyadic) : Dyadic :=
  let k := max ((bitLength a.m.natAbs : Int) - 53) (-1074 - a.e)
  if k ≤ 0 then a else ⟨roundShift a.m k.toNat, a.e + k⟩

/-- Integer part, rounding toward zero. -/
def trunc (a : Dyadic) : Int :=
  if 0 ≤ a.e then a.m * 2 ^ a.e.toNat
  else if 0 ≤ a.m then a.m / 2 ^ (-a.e).toNat
  else -((-a.m) / 2 ^ (-a.e).toNat)

/-- Conversion `double → uint64_t`: the fractional part is discarded; the
conversion is undefined (`none`) when the integer part is not a `uint64_t`. -/
def toUInt64 (a : Dyadic) : Option Nat :=
  let t := trunc a
  if 0 ≤ t ∧ t < 2 ^ 64 then some t.toNat else none

end Dyadic

open Dyadic

/-! ## Data model -/

/-- The C `struct timeval`: seconds and microseconds, both `long`. -/
structure Timeval where
  tv_sec : Int
  tv_usec : Int
deriving DecidableEq, Repr

/-- The time of day in microseconds, as an exact integer. -/
def Timeval.micros (t : Timeval) : Int := t.tv_sec * 1000000 + t.tv_usec

/-- A reading of `gettimeofday` with a non-negative 32-bit number of seconds:
`0 ≤ tv_sec < 2 ^ 31` and `0 ≤ tv_usec < 1000000`. -/
def Timeval.inRange (t : Timeval) : Prop :=
  0 ≤ t.tv_sec ∧ t.tv_sec < 2 ^ 31 ∧ 0 ≤ t.tv_usec ∧ t.tv_usec < 1000000

/-- The literal `1.0e-6`: the binary64 number nearest to `1 / 1000000`. -/
def lit_1em6 : Dyadic := ⟨4722366482869645, -72⟩

/-- The literal `1.0e6`. -/
def lit_1e6 : Dyadic := ofInt 1000000

/-- The subexpression `t.tv_sec + (t.tv_usec * 1.0e-6)` of lines 53–55: both
fields are converted to `double`, and the product and the sum are each
rounded. -/
def seconds (t : Timeval) : Dyadic :=
  round53 (add (round53 (ofInt t.tv_sec))
    (round53 (mul (round53 (ofInt t.tv_usec)) lit_1em6)))

/-- Lines 49–57.  `start_time` is `state_tv.start_time` and `tp` is what
`gettimeofday` stores. -/
def _micros64tv (start_time tp : Timeval) : Option Nat :=
  toUInt64 (round53 (mul lit_1e6 (round53 (sub (seconds tp) (seconds start_time)))))

/-- The threshold of line 70. -/
def threshold : Nat := 60000000

/-- The test of line 70, `(_micros64tv() - start_time) > 60000000LL`: the
subtraction and the comparison are made in `uint64_t`. -/
def due (now start_time : Nat) : Bool :=
  decide (threshold < (now + 2 ^ 64 - start_time) % 2 ^ 64)

/-- Lines 70–73 on the values of the two `_micros64tv()` calls: the new value
of the local `start_time`, and whether `system(...)` was called. -/
def loop_body (start_time now1 now2 : Nat) : Nat × Bool :=
  if due now1 start_time then (now2, true) else (start_time, false)

/-- The loop of lines 68–74 over the successive pairs of `_micros64tv()`
values; the result lists the iterations that called `system(...)`, each with
the value tested and the value stored into `start_time`. -/
def loop_run : Nat → List (Nat × Nat) → List (Nat × Nat)
  | _, [] => []
  | start_time, (now1, now2) :: rest =>
    if due now1 start_time then (now1, now2) :: loop_run now2 rest
    else loop_run start_time rest

/-- The samples of a run in the order in which they are taken. -/
def samples : List (Nat × Nat) → List Nat
  | [] => []
  | (now1, now2) :: rest => now1 :: now2 :: samples rest

/-- Where a thread running `_fire_isr_timer` stands. -/
inductive LoopThread
  /-- created, before the guard of line 61 -/
  | entry
  /-- at the test of `while(sw)`, line 68, with the local `start_time` -/
  | looping (start_time : Nat)
  /-- out of the loop, before `running = false`, line 76 -/
  | leaving
  /-- past `running = false`, before the return of line 78 -/
  | returning
  /-- returned -/
  | finished
deriving DecidableEq, Repr

/-- A thread that has not returned. -/
def LoopThread.live : LoopThread → Bool
  | .finished => false
  | _ => true

/-- A thread that has neither returned nor executed `running = false`. -/
def LoopThread.active : LoopThread → Bool
  | .finished => false
  | .returning => false
  | _ => true

/-- The globals of lines 42–47, every thread `pthread_create` has made, and
the number of `system("am broadcast ...")` calls so far. -/
structure State where
  running : Bool
  sw : Bool
  start_time : Timeval
  threads : List LoopThread
  broadcasts : Nat
deriving DecidableEq, Repr

/-- The state at load time: both flags false, `state_tv` zeroed. -/
def init : State := ⟨false, false, ⟨0, 0⟩, [], 0⟩

/-- Number of threads that have not returned. -/
def liveCount (l : List LoopThread) : Nat := l.countP LoopThread.live

/-- Number of threads that have neither returned nor executed
`running = false`. -/
def activeCount (l : List LoopThread) : Nat := l.countP LoopThread.active

/-! ## Operations -/

/-- Lines 81–100: stores the clock reading in `state_tv.start_time` and
creates one detached thread on `_fire_isr_timer`.  The result of
`pthread_create` is not looked at by the source; the thread is taken to be
created. -/
def main_test (now : Timeval) (s : State) : State :=
  { s with start_time := now, threads := s.threads ++ [LoopThread.entry] }

/-- Lines 102–116, as one step of the caller.  `x` and `y` only reach
`LOGI`. -/
def start_ticks (_x _y : Int) (now : Timeval) (s : State) : Bool × State :=
  if s.running then (s.running, s)
  else
    let s1 := main_test now { s with running := true }
    (s1.running, s1)

/-- Lines 118–123. -/
def stop_ticks (s : State) : Bool × State :=
  let s1 := { s with sw := false }
  (s1.running, s1)

/-- Lines 59–79, one step of a loop thread standing at `pc`:
the guard and `sw = true` (lines 61–67), one test of `while(sw)` with the
loop body when it holds (lines 68–74), the assignment `running = false`
(line 76), or the return (lines 77–78).
`tp1` and `tp2` are the clock readings of the two `_micros64tv()` calls,
used only when the calls are made.  `none` is undefined behaviour in
`_micros64tv`. -/
def _fire_isr_timer (tp1 tp2 : Timeval) (s : State) :
    LoopThread → Option (LoopThread × State)
  | .entry =>
    if s.sw then some (.finished, s)
    else some (.looping 0, { s with sw := true })
  | .looping start_time =>
    if s.sw then
      match _micros64tv s.start_time tp1 with
      | none => none
      | some now1 =>
        if due now1 start_time then
          match _micros64tv s.start_time tp2 with
          | none => none
          | some now2 =>
            some (.looping now2, { s with broadcasts := s.broadcasts + 1 })
        else some (.looping start_time, s)
    else some (.leaving, s)
  | .leaving => some (.returning, { s with running := false })
  | .returning => some (.finished, s)
  | .finished => some (.finished, s)

/-- What can happen next: a call of `start_ticks`, a call of `stop_ticks`,
or the next step of loop thread `i`. -/
inductive Action
  | start (x y : Int) (now : Timeval)
  | stop
  | loop (i : Nat) (tp1 tp2 : Timeval)
deriving DecidableEq, Repr

/-- One action. -/
def step (s : State) : Action → Option State
  | .start x y now => some (start_ticks x y now s).2
  | .stop => some (stop_ticks s).2
  | .loop i tp1 tp2 =>
    match s.threads[i]? with
    | none => some s
    | some pc =>
      match _fire_isr_timer tp1 tp2 s pc with
      | none => none
      | some (pc', s') => some { s' with threads := s'.threads.set i pc' }

/-- A sequence of actions, from left to right. -/
def run : State → List Action → Option State
  | s, [] => some s
  | s, a :: rest =>
    match step s a with
    | none => none
    | some s' => run s' rest

/-- The invariant behind the single loop: a thread that has not yet executed
`running = false` exists only while `running` is set, and there is never more
than one. -/
def Inv (s : State) : Prop :=
  (s.running = false → activeCount s.threads = 0) ∧ activeCount s.threads ≤ 1


/-! ## The single loop thread -/

theorem countP_set_balance {α : Type} (p : α → Bool) (b : α) :
    ∀ (l : List α) (i : Nat) (a : α), l[i]? = some a →
      (l.set i b).countP p + (if p a then 1 else 0)
        = l.countP p + (if p b then 1 else 0)
  | [], i, a, h => by simp at h
  | c :: l, 0, a, h => by
    simp at h
    subst h
    simp only [List.set_cons_zero, List.countP_cons]
    omega
  | c :: l, i + 1, a, h => by
    simp at h
    have ih := countP_set_balance p b l i a h
    simp only [List.set_cons_succ, List.countP_cons]
    omega

theorem activeCount_set (l : List LoopThread) (i : Nat) (a b : LoopThread)
    (h : l[i]? = some a) :
    activeCount (l.set i b) + (if a.active then 1 else 0)
      = activeCount l + (if b.active then 1 else 0) :=
  countP_set_balance LoopThread.active b l i a h

theorem activeCount_append_entry (l : List LoopThread) :
    activeCount (l ++ [LoopThread.entry]) = activeCount l + 1 := by
  simp [activeCount, List.countP_append, LoopThread.active]

theorem inv_init : Inv init := by
  simp [Inv, init, activeCount]

theorem inv_step (s s' : State) (a : Action) (hs : Inv s)
    (h : step s a = some s') : Inv s' := by
  obtain ⟨h1, h2⟩ := hs
  cases a with
  | start x y now =>
    simp only [step, start_ticks, main_test, Option.some.injEq] at h
    subst h
    by_cases hr : s.running = true
    · simp only [hr, if_true]
      exact ⟨fun h => by simp [hr] at h, h2⟩
    · simp only [hr]
      have h0 := h1 (by simpa using hr)
      simp [Inv, activeCount_append_entry, h0]
  | stop =>
    simp only [step, stop_ticks, Option.some.injEq] at h
    subst h
    exact ⟨h1, h2⟩
  | loop i tp1 tp2 =>
    simp only [step] at h
    cases hi : s.threads[i]? with
    | none =>
      simp only [hi, Option.some.injEq] at h
      subst h
      exact ⟨h1, h2⟩
    | some pc =>
      simp only [hi] at h
      cases pc with
      | entry =>
        have hb := activeCount_set s.threads i _ LoopThread.finished hi
        have hc := activeCount_set s.threads i _ (LoopThread.looping 0) hi
        simp only [LoopThread.active, if_true, Bool.false_eq_true, if_false] at hb hc
        by_cases hsw : s.sw = true
        · simp only [_fire_isr_timer, hsw, if_true, Option.some.injEq] at h
          subst h
          exact ⟨fun hr => by have := h1 hr; simp only at *; omega, by simp only; omega⟩
        · simp only [_fire_isr_timer, hsw, Bool.false_eq_true, if_false,
            Option.some.injEq] at h
          subst h
          exact ⟨fun hr => by have := h1 hr; simp only at *; omega, by simp only; omega⟩
      | looping st =>
        have hc : ∀ st', activeCount (s.threads.set i (LoopThread.looping st'))
            = activeCount s.threads := fun st' => by
          have := activeCount_set s.threads i _ (LoopThread.looping st') hi
          simp only [LoopThread.active, if_true] at this
          omega
        have hd : activeCount (s.threads.set i LoopThread.leaving)
            = activeCount s.threads := by
          have := activeCount_set s.threads i _ LoopThread.leaving hi
          simp only [LoopThread.active, if_true] at this
          omega
        by_cases hsw : s.sw = true
        · simp only [_fire_isr_timer, hsw, if_true] at h
          cases h1m : _micros64tv s.start_time tp1 with
          | none => simp [h1m] at h
          | some now1 =>
            simp only [h1m] at h
            by_cases hdue : due now1 st = true
            · simp only [hdue, if_true] at h
              cases h2m : _micros64tv s.start_time tp2 with
              | none => simp [h2m] at h
              | some now2 =>
                simp only [h2m, Option.some.injEq] at h
                subst h
                exact ⟨fun hr => by simp only at *; rw [hc]; exact h1 hr,
                  by simp only; rw [hc]; exact h2⟩
            · simp only [hdue, Bool.false_eq_true, if_false, Option.some.injEq] at h
              subst h
              exact ⟨fun hr => by simp only at *; rw [hc]; exact h1 hr,
                by simp only; rw [hc]; exact h2⟩
        · simp only [_fire_isr_timer, hsw, Bool.false_eq_true, if_false,
            Option.some.injEq] at h
          subst h
          exact ⟨fun hr => by simp only at *; rw [hd]; exact h1 hr,
            by simp only; rw [hd]; exact h2⟩
      | leaving =>
        have hb := activeCount_set s.threads i _ LoopThread.returning hi
        simp only [LoopThread.active, if_true, Bool.false_eq_true, if_false] at hb
        simp only [_fire_isr_timer, Option.some.injEq] at h
        subst h
        exact ⟨fun _ => by simp only; omega, by simp only; omega⟩
      | returning =>
        have hb := activeCount_set s.threads i _ LoopThread.finished hi
        simp only [LoopThread.active, if_true, Bool.false_eq_true, if_false] at hb
        simp only [_fire_isr_timer, Option.some.injEq] at h
        subst h
        exact ⟨fun hr => by have := h1 hr; simp only at *; omega, by simp only; omega⟩
      | finished =>
        have hb := activeCount_set s.threads i _ LoopThread.finished hi
        simp only [LoopThread.active, if_true, Bool.false_eq_true, if_false] at hb
        simp only [_fire_isr_timer, Option.some.injEq] at h
        subst h
        exact ⟨fun hr => by have := h1 hr; simp only at *; omega, by simp only; omega⟩

theorem inv_run : ∀ (acts : List Action) (s s' : State), Inv s →
    run s acts = some s' → Inv s'
  | [], s, s', hs, h => by
    simp only [run, Option.some.injEq] at h
    exact h ▸ hs
  | a :: rest, s, s', hs, h => by
    simp only [run] at h
    cases hst : step s a with
    | none => simp [hst] at h
    | some s1 =>
      simp only [hst] at h
      exact inv_run rest s1 s' (inv_step s s1 a hs hst) h

/-- C1, the claim fails: a thread that has executed `running = false`
(line 76) has not yet returned (lines 77–78) when the next `start_ticks`
finds `running` clear and creates a second thread: after `start`, entry,
`stop`, poll, line 76, `start`, two threads are live. -/
theorem two_live_threads_counterexample :
    run init [Action.start 1 2 ⟨100, 0⟩, Action.loop 0 ⟨100, 0⟩ ⟨100, 0⟩,
        Action.stop, Action.loop 0 ⟨101, 0⟩ ⟨101, 0⟩,
        Action.loop 0 ⟨101, 0⟩ ⟨101, 0⟩, Action.start 3 4 ⟨102, 0⟩]
      = some ⟨true, false, ⟨102, 0⟩,
          [LoopThread.returning, LoopThread.entry], 0⟩ ∧
    ¬ liveCount [LoopThread.returning, LoopThread.entry] ≤ 1 := by
  decide

/-- C1, amended: in every state reached from the initial state by any
sequence of `start_ticks` calls, `stop_ticks` calls and loop-thread steps
(entry guard, poll iteration, `running = false`, return), at most one loop
thread has not yet executed `running = false`, and none while `running` is
clear. -/
theorem at_most_one_active_thread (acts : List Action) (s : State)
    (h : run init acts = some s) :
    activeCount s.threads ≤ 1 ∧ (s.running = false → activeCount s.threads = 0) :=
  ⟨(inv_run acts init s inv_init h).2, (inv_run acts init s inv_init h).1⟩

theorem at_most_one_active_thread_witness :
    run init [Action.start 1 2 ⟨100, 0⟩, Action.loop 0 ⟨100, 0⟩ ⟨100, 0⟩,
        Action.loop 0 ⟨161, 0⟩ ⟨161, 7⟩, Action.stop, Action.start 3 4 ⟨170, 0⟩,
        Action.loop 0 ⟨171, 0⟩ ⟨171, 0⟩, Action.loop 0 ⟨171, 0⟩ ⟨171, 0⟩,
        Action.start 5 6 ⟨180, 0⟩, Action.loop 1 ⟨180, 0⟩ ⟨180, 0⟩]
      = some ⟨true, true, ⟨180, 0⟩,
          [LoopThread.returning, LoopThread.looping 0], 1⟩
    ∧ activeCount [LoopThread.returning, LoopThread.looping 0] ≤ 1 :=
  ⟨by decide, (at_most_one_active_thread
    [Action.start 1 2 ⟨100, 0⟩, Action.loop 0 ⟨100, 0⟩ ⟨100, 0⟩,
      Action.loop 0 ⟨161, 0⟩ ⟨161, 7⟩, Action.stop, Action.start 3 4 ⟨170, 0⟩,
      Action.loop 0 ⟨171, 0⟩ ⟨171, 0⟩, Action.loop 0 ⟨171, 0⟩ ⟨171, 0⟩,
      Action.start 5 6 ⟨180, 0⟩, Action.loop 1 ⟨180, 0⟩ ⟨180, 0⟩]
    ⟨true, true, ⟨180, 0⟩, [LoopThread.returning, LoopThread.looping 0], 1⟩
    (by decide)).1⟩

/-! ## `start_ticks` and `stop_ticks` -/

/-- C2: when `running` is set, `start_ticks` returns true and changes nothing:
no thread is created and `running`, `sw`, the reference clock and every
thread's `start_time` stay as they were; two calls in a row from the initial
state both return true and create one thread in all. -/
theorem start_ticks_while_running (s : State) (x y : Int) (now : Timeval)
    (h : s.running = true) :
    start_ticks x y now s = (true, s) ∧
    ∀ (x1 y1 x2 y2 : Int) (now1 now2 : Timeval),
      (start_ticks x1 y1 now1 init).1 = true ∧
      (start_ticks x2 y2 now2 (start_ticks x1 y1 now1 init).2).1 = true ∧
      (start_ticks x2 y2 now2 (start_ticks x1 y1 now1 init).2).2.threads
        = [LoopThread.entry] := by
  refine ⟨by simp [start_ticks, h], ?_⟩
  intro x1 y1 x2 y2 now1 now2
  simp [start_ticks, main_test, init]

theorem start_ticks_while_running_witness :
    (⟨true, true, ⟨100, 0⟩, [LoopThread.looping 5], 3⟩ : State).running = true ∧
    start_ticks 7 8 ⟨200, 0⟩ ⟨true, true, ⟨100, 0⟩, [LoopThread.looping 5], 3⟩
      = (true, ⟨true, true, ⟨100, 0⟩, [LoopThread.looping 5], 3⟩) :=
  ⟨rfl, (start_ticks_while_running
    ⟨true, true, ⟨100, 0⟩, [LoopThread.looping 5], 3⟩ 7 8 ⟨200, 0⟩ rfl).1⟩

/-- C3: when `running` is clear, `start_ticks` sets it, creates exactly one
loop thread and returns true; neither the result nor the new state depends
on `x` and `y`. -/
theorem start_ticks_while_stopped (s : State) (x y : Int) (now : Timeval)
    (h : s.running = false) :
    start_ticks x y now s
      = (true, { s with running := true, start_time := now,
                        threads := s.threads ++ [LoopThread.entry] }) ∧
    ∀ x' y' : Int, start_ticks x' y' now s = start_ticks x y now s := by
  refine ⟨by simp [start_ticks, main_test, h], ?_⟩
  intro x' y'
  rfl

theorem start_ticks_while_stopped_witness :
    init.running = false ∧
    start_ticks 7 8 ⟨200, 0⟩ init
      = (true, ⟨true, false, ⟨200, 0⟩, [LoopThread.entry], 0⟩) :=
  ⟨rfl, (start_ticks_while_stopped init 7 8 ⟨200, 0⟩ rfl).1⟩

/-- C4: `stop_ticks` clears `sw`, leaves everything else alone and returns
`running` as it was at the call; a second call gives the same state and the
same result; when `running` is clear the result is false. -/
theorem stop_ticks_spec (s : State) :
    stop_ticks s = (s.running, { s with sw := false }) ∧
    stop_ticks (stop_ticks s).2 = stop_ticks s ∧
    ∀ (b : Bool) (ref : Timeval) (thr : List LoopThread) (n : Nat),
      (stop_ticks ⟨false, b, ref, thr, n⟩).1 = false :=
  ⟨rfl, rfl, fun _ _ _ _ => rfl⟩

/-! ## `stop`, `start`, `stop` -/

theorem looping_persists (ref : Timeval) :
    ∀ (polls : List Action) (st n : Nat) (s' : State),
      (∀ a ∈ polls, ∃ tp1 tp2, a = Action.loop 0 tp1 tp2) →
      run ⟨true, true, ref, [LoopThread.looping st], n⟩ polls = some s' →
      ∃ st' n', s' = ⟨true, true, ref, [LoopThread.looping st'], n'⟩
  | [], st, n, s', _, h => by
    simp only [run, Option.some.injEq] at h
    exact ⟨st, n, h.symm⟩
  | a :: rest, st, n, s', hall, h => by
    obtain ⟨tp1, tp2, rfl⟩ := hall a (List.mem_cons_self _ _)
    have hrest : ∀ a ∈ rest, ∃ tp1 tp2, a = Action.loop 0 tp1 tp2 :=
      fun a ha => hall a (List.mem_cons_of_mem _ ha)
    simp only [run, step, List.getElem?_cons_zero, _fire_isr_timer, if_true] at h
    cases h1 : _micros64tv ref tp1 with
    | none => simp [h1] at h
    | some now1 =>
      simp only [h1] at h
      by_cases hdue : due now1 st = true
      · simp only [hdue, if_true] at h
        cases h2 : _micros64tv ref tp2 with
        | none => simp [h2] at h
        | some now2 =>
          simp only [h2, List.set_cons_zero] at h
          exact looping_persists ref rest now2 (n + 1) s' hrest h
      · simp only [hdue, Bool.false_eq_true, if_false, List.set_cons_zero] at h
        exact looping_persists ref rest st n s' hrest h

theorem stop_ends_loop (ref tp1 tp2 tp3 tp4 tp5 tp6 : Timeval) (st n : Nat) :
    run ⟨true, true, ref, [LoopThread.looping st], n⟩
        [Action.stop, Action.loop 0 tp1 tp2, Action.loop 0 tp3 tp4]
      = some ⟨false, false, ref, [LoopThread.returning], n⟩ ∧
    run ⟨true, true, ref, [LoopThread.looping st], n⟩
        [Action.stop, Action.loop 0 tp1 tp2, Action.loop 0 tp3 tp4,
          Action.loop 0 tp5 tp6]
      = some ⟨false, false, ref, [LoopThread.finished], n⟩ := by
  constructor <;> simp [run, step, stop_ticks, _fire_isr_timer]

/-- C5, the claim fails: after `stop`, `start`, `stop`, when the loop thread
takes its entry step only after the second `stop`, the entry sets `sw` again
and the following polls find it set: the thread is still iterating and
`running` is still true. -/
theorem stop_start_stop_counterexample :
    run init [Action.stop, Action.start 0 0 ⟨100, 0⟩, Action.stop,
        Action.loop 0 ⟨100, 0⟩ ⟨100, 0⟩, Action.loop 0 ⟨101, 0⟩ ⟨101, 0⟩,
        Action.loop 0 ⟨102, 0⟩ ⟨102, 0⟩, Action.loop 0 ⟨103, 0⟩ ⟨103, 0⟩]
      = some ⟨true, true, ⟨100, 0⟩, [LoopThread.looping 0], 0⟩ := by
  decide

/-- C5, amended: after `stop`, `start`, `stop`: in every execution in which
the loop thread takes its entry step, followed by any number of loop
iterations, before the second `stop`, the thread's next poll of `sw` leaves
the loop and its next step clears `running`, after which it returns; if the
second `stop` comes before the entry step, the entry sets `sw` again, and
whatever steps the loop thread then takes it is still iterating with
`running` true. -/
theorem stop_start_stop (x y : Int) (now tp1 tp2 tp3 tp4 tp5 tp6 tp7 tp8 : Timeval)
    (iters : List Action) (s1 : State)
    (hiters : ∀ a ∈ iters, ∃ t1 t2, a = Action.loop 0 t1 t2)
    (hrun : run init (Action.stop :: Action.start x y now
        :: Action.loop 0 tp1 tp2 :: iters) = some s1) :
    (s1.running = true ∧ s1.sw = true ∧ s1.start_time = now ∧
      ∃ st, s1.threads = [LoopThread.looping st]) ∧
    run s1 [Action.stop, Action.loop 0 tp3 tp4, Action.loop 0 tp5 tp6]
      = some ⟨false, false, now, [LoopThread.returning], s1.broadcasts⟩ ∧
    run s1 [Action.stop, Action.loop 0 tp3 tp4, Action.loop 0 tp5 tp6,
        Action.loop 0 tp7 tp8]
      = some ⟨false, false, now, [LoopThread.finished], s1.broadcasts⟩ ∧
    run init [Action.stop, Action.start x y now, Action.stop,
        Action.loop 0 tp1 tp2]
      = some ⟨true, true, now, [LoopThread.looping 0], 0⟩ ∧
    ∀ (polls : List Action) (s' : State),
      (∀ a ∈ polls, ∃ t1 t2, a = Action.loop 0 t1 t2) →
      run ⟨true, true, now, [LoopThread.looping 0], 0⟩ polls = some s' →
      s'.running = true ∧ s'.sw = true ∧
        ∃ st, s'.threads = [LoopThread.looping st] := by
  have hpre : run init (Action.stop :: Action.start x y now
      :: Action.loop 0 tp1 tp2 :: iters)
      = run ⟨true, true, now, [LoopThread.looping 0], 0⟩ iters := by
    simp [run, step, init, stop_ticks, start_ticks, main_test, _fire_isr_timer]
  rw [hpre] at hrun
  obtain ⟨st, n, rfl⟩ := looping_persists now iters 0 0 s1 hiters hrun
  have hend := stop_ends_loop now tp3 tp4 tp5 tp6 tp7 tp8 st n
  refine ⟨⟨rfl, rfl, rfl, st, rfl⟩, hend.1, hend.2, ?_, ?_⟩
  · simp [run, step, init, stop_ticks, start_ticks, main_test, _fire_isr_timer]
  · intro polls s' hall h
    obtain ⟨st', n', rfl⟩ := looping_persists now polls 0 0 s' hall h
    exact ⟨rfl, rfl, st', rfl⟩

theorem stop_start_stop_witness :
    run init [Action.stop, Action.start 0 0 ⟨100, 0⟩,
        Action.loop 0 ⟨100, 0⟩ ⟨100, 0⟩, Action.loop 0 ⟨101, 0⟩ ⟨101, 0⟩,
        Action.loop 0 ⟨161, 0⟩ ⟨161, 7⟩]
      = some ⟨true, true, ⟨100, 0⟩, [LoopThread.looping 61000007], 1⟩ ∧
    run ⟨true, true, ⟨100, 0⟩, [LoopThread.looping 61000007], 1⟩
        [Action.stop, Action.loop 0 ⟨162, 0⟩ ⟨162, 0⟩,
          Action.loop 0 ⟨162, 0⟩ ⟨162, 0⟩, Action.loop 0 ⟨162, 0⟩ ⟨162, 0⟩]
      = some ⟨false, false, ⟨100, 0⟩, [LoopThread.finished], 1⟩ :=
  ⟨by decide,
    (stop_start_stop 0 0 ⟨100, 0⟩ ⟨100, 0⟩ ⟨100, 0⟩ ⟨162, 0⟩ ⟨162, 0⟩
      ⟨162, 0⟩ ⟨162, 0⟩ ⟨162, 0⟩ ⟨162, 0⟩
      [Action.loop 0 ⟨101, 0⟩ ⟨101, 0⟩, Action.loop 0 ⟨161, 0⟩ ⟨161, 7⟩]
      ⟨true, true, ⟨100, 0⟩, [LoopThread.looping 61000007], 1⟩
      (by simp) (by decide)).2.2.1⟩

namespace Dyadic

theorem toRat_ofInt (n : Int) : toRat (ofInt n) = n := by
  simp [toRat, ofInt]

theorem toRat_mul (a b : Dyadic) : toRat (mul a b) = toRat a * toRat b := by
  simp only [toRat, mul, Int.cast_mul]
  rw [zpow_add₀ (by norm_num : (2 : ℚ) ≠ 0)]
  ring

theorem two_pow_toNat_mul (d e : Int) (h : e ≤ d) :
    (((2 : Int) ^ (d - e).toNat : Int) : ℚ) * (2 : ℚ) ^ e = (2 : ℚ) ^ d := by
  have h0 : 0 ≤ d - e := by omega
  have h1 : (((2 : Int) ^ (d - e).toNat : Int) : ℚ) = (2 : ℚ) ^ (d - e) := by
    rw [Int.cast_pow, ← zpow_natCast, Int.toNat_of_nonneg h0]
    norm_num
  rw [h1, ← zpow_add₀ (by norm_num : (2 : ℚ) ≠ 0)]
  congr 1
  omega

theorem toRat_add (a b : Dyadic) : toRat (add a b) = toRat a + toRat b := by
  simp only [toRat, add, Int.cast_add, Int.cast_mul]
  have ha := two_pow_toNat_mul a.e (min a.e b.e) (min_le_left _ _)
  have hb := two_pow_toNat_mul b.e (min a.e b.e) (min_le_right _ _)
  rw [add_mul, mul_assoc, mul_assoc, ha, hb]

theorem toRat_neg (a : Dyadic) : toRat (neg a) = - toRat a := by
  simp [toRat, neg]

theorem toRat_sub (a b : Dyadic) : toRat (sub a b) = toRat a - toRat b := by
  rw [sub, toRat_add, toRat_neg]
  ring

theorem bitLengthAux_spec : ∀ (fuel n : Nat), n ≤ fuel →
    n < 2 ^ bitLengthAux fuel n ∧ (n ≠ 0 → 2 ^ (bitLengthAux fuel n - 1) ≤ n)
  | 0, n, h => by
    have : n = 0 := by omega
    subst this
    simp [bitLengthAux]
  | fuel + 1, n, h => by
    by_cases hn : n = 0
    · subst hn
      simp [bitLengthAux]
    · have ih := bitLengthAux_spec fuel (n / 2) (by omega)
      simp only [bitLengthAux, hn, if_false, Nat.add_sub_cancel]
      constructor
      · rw [pow_succ]
        omega
      · intro _
        by_cases h2 : n / 2 = 0
        · have : bitLengthAux fuel (n / 2) = 0 := by
            rw [h2]
            cases fuel <;> simp [bitLengthAux]
          rw [this]
          simp
          omega
        · have h3 := ih.2 h2
          have h4 : bitLengthAux fuel (n / 2) ≠ 0 := by
            intro h0
            have := ih.1
            rw [h0] at this
            omega
          obtain ⟨j, hj⟩ := Nat.exists_eq_succ_of_ne_zero h4
          rw [hj] at h3 ⊢
          simp only [Nat.succ_sub_one] at h3
          rw [Nat.succ_eq_add_one, pow_succ]
          omega

theorem lt_two_pow_bitLength (n : Nat) : n < 2 ^ bitLength n :=
  (bitLengthAux_spec n n (le_refl n)).1

theorem two_pow_bitLength_le (n : Nat) (h : n ≠ 0) : 2 ^ (bitLength n - 1) ≤ n :=
  (bitLengthAux_spec n n (le_refl n)).2 h

theorem bitLength_le (n j : Nat) (h : n < 2 ^ j) : bitLength n ≤ j := by
  by_cases hn : n = 0
  · subst hn
    simp [bitLength, bitLengthAux]
  · have h1 := two_pow_bitLength_le n hn
    by_contra hc
    have h2 : j ≤ bitLength n - 1 := by omega
    have h3 : 2 ^ j ≤ 2 ^ (bitLength n - 1) := Nat.pow_le_pow_right (by norm_num) h2
    omega


theorem roundShift_err (m : Int) (k : Nat) :
    2 * |roundShift m k * 2 ^ k - m| ≤ 2 ^ k := by
  have hd : (0 : Int) < 2 ^ k := by positivity
  have h1 := Int.emod_add_ediv m (2 ^ k)
  have h2 := Int.emod_nonneg m (ne_of_gt hd)
  have h3 := Int.emod_lt_of_pos m hd
  have h4 : (m / 2 ^ k + 1) * 2 ^ k = 2 ^ k * (m / 2 ^ k) + 2 ^ k := by ring
  have h5 : m / 2 ^ k * 2 ^ k = 2 ^ k * (m / 2 ^ k) := by ring
  unfold roundShift
  simp only
  generalize (2 : Int) ^ k * (m / 2 ^ k) = t at h1 h4 h5
  generalize m % 2 ^ k = r at h1 h2 h3
  generalize (2 : Int) ^ k = d at hd h3 h4 h5
  split_ifs
  · rw [h5]
    rcases abs_cases (t - m) with ⟨ha, _⟩ | ⟨ha, _⟩ <;> omega
  · rw [h4]
    rcases abs_cases (t + d - m) with ⟨ha, _⟩ | ⟨ha, _⟩ <;> omega
  · rw [h5]
    rcases abs_cases (t - m) with ⟨ha, _⟩ | ⟨ha, _⟩ <;> omega
  · rw [h4]
    rcases abs_cases (t + d - m) with ⟨ha, _⟩ | ⟨ha, _⟩ <;> omega

theorem roundShift_zero (k : Nat) : roundShift 0 k = 0 := by
  have hd : (0 : Int) < 2 ^ k := by positivity
  simp [roundShift, hd]

theorem round53_exact (a : Dyadic) (h1 : a.m.natAbs < 2 ^ 53) (h2 : -1074 ≤ a.e) :
    round53 a = a := by
  have hb := bitLength_le _ _ h1
  unfold round53
  simp only
  rw [if_pos]
  have : ((bitLength a.m.natAbs : Nat) : Int) - 53 ≤ 0 := by omega
  exact max_le this (by omega)

theorem two_zpow_pos (e : Int) : (0 : ℚ) < (2 : ℚ) ^ e := by positivity

theorem round53_shift_err (m e k : Int) (hk : 0 < k) :
    |toRat ⟨roundShift m k.toNat, e + k⟩ - toRat ⟨m, e⟩| ≤ (2 : ℚ) ^ (e + k - 1) := by
  have hpow : (2 : ℚ) ^ k = (((2 : Int) ^ k.toNat : Int) : ℚ) := by
    rw [Int.cast_pow, ← zpow_natCast, Int.toNat_of_nonneg hk.le]
    norm_num
  have hv : toRat ⟨roundShift m k.toNat, e + k⟩ - toRat ⟨m, e⟩
      = ((roundShift m k.toNat * 2 ^ k.toNat - m : Int) : ℚ) * (2 : ℚ) ^ e := by
    simp only [toRat]
    rw [zpow_add₀ (by norm_num : (2 : ℚ) ≠ 0), hpow]
    push_cast
    ring
  rw [hv, abs_mul, abs_of_pos (two_zpow_pos e)]
  have herr := roundShift_err m k.toNat
  have herr' : (2 : ℚ) * |((roundShift m k.toNat * 2 ^ k.toNat - m : Int) : ℚ)|
      ≤ (2 : ℚ) ^ k := by
    rw [hpow, ← Int.cast_abs]
    exact_mod_cast herr
  have hsplit : (2 : ℚ) ^ (e + k - 1) = (2 : ℚ) ^ k * (2 : ℚ) ^ e / 2 := by
    rw [show e + k - 1 = k + e + (-1) by ring, zpow_add₀ (by norm_num : (2 : ℚ) ≠ 0),
      zpow_add₀ (by norm_num : (2 : ℚ) ≠ 0)]
    norm_num
    ring
  rw [hsplit]
  have hpe := two_zpow_pos e
  have : |((roundShift m k.toNat * 2 ^ k.toNat - m : Int) : ℚ)| * (2 : ℚ) ^ e
      ≤ ((2 : ℚ) ^ k / 2) * (2 : ℚ) ^ e :=
    mul_le_mul_of_nonneg_right (by linarith) hpe.le
  linarith [this]

theorem round53_err (a : Dyadic) (j : Int) (hj : -1021 ≤ j)
    (h : |toRat a| < (2 : ℚ) ^ j) :
    |toRat (round53 a) - toRat a| ≤ (2 : ℚ) ^ (j - 54) := by
  unfold round53
  simp only
  split_ifs with hk
  · simp only [sub_self, abs_zero]
    exact (two_zpow_pos _).le
  · push_neg at hk
    by_cases hm : a.m = 0
    · simp only [toRat, hm, roundShift_zero, Int.cast_zero, zero_mul, sub_self, abs_zero]
      exact (two_zpow_pos _).le
    · have hshift := round53_shift_err a.m a.e _ hk
      refine le_trans hshift ?_
      apply zpow_le_zpow_right₀ (by norm_num : (1 : ℚ) ≤ 2)
      have hL := two_pow_bitLength_le a.m.natAbs (by simpa using hm)
      have habs : |toRat a| = (a.m.natAbs : ℚ) * (2 : ℚ) ^ a.e := by
        simp only [toRat, abs_mul, abs_of_pos (two_zpow_pos a.e)]
        rw [Nat.cast_natAbs, Int.cast_abs]
      have hlow : (2 : ℚ) ^ (((bitLength a.m.natAbs - 1 : Nat) : Int) + a.e) ≤ |toRat a| := by
        rw [habs, zpow_add₀ (by norm_num : (2 : ℚ) ≠ 0), zpow_natCast]
        apply mul_le_mul_of_nonneg_right _ (two_zpow_pos a.e).le
        exact_mod_cast hL
      have hlt := lt_of_le_of_lt hlow h
      have hexp := (zpow_lt_zpow_iff_right₀ (by norm_num : (1 : ℚ) < 2)).mp hlt
      have hbl : bitLength a.m.natAbs ≠ 0 := by
        intro h0
        have := lt_two_pow_bitLength a.m.natAbs
        rw [h0] at this
        have : a.m.natAbs = 0 := by omega
        exact hm (by simpa using this)
      have hmax : max ((bitLength a.m.natAbs : Int) - 53) (-1074 - a.e) ≤ j - 53 - a.e := by
        apply max_le <;> omega
      omega

theorem trunc_bounds (a : Dyadic) :
    toRat a - 1 < (trunc a : ℚ) ∧ (trunc a : ℚ) < toRat a + 1 ∧
    (0 ≤ toRat a → (trunc a : ℚ) ≤ toRat a) ∧
    (toRat a ≤ 0 → toRat a ≤ (trunc a : ℚ)) := by
  by_cases he : 0 ≤ a.e
  · have hv : (trunc a : ℚ) = toRat a := by
      simp only [trunc, he, if_true, toRat]
      push_cast
      rw [← zpow_natCast, Int.toNat_of_nonneg he]
    rw [hv]
    exact ⟨by linarith, by linarith, fun _ => le_refl _, fun _ => le_refl _⟩
  · push_neg at he
    have hd : (0 : Int) < 2 ^ (-a.e).toNat := by positivity
    have hdq : (0 : ℚ) < (((2 : Int) ^ (-a.e).toNat : Int) : ℚ) := by exact_mod_cast hd
    have hv : toRat a * (((2 : Int) ^ (-a.e).toNat : Int) : ℚ) = a.m := by
      simp only [toRat]
      rw [Int.cast_pow, ← zpow_natCast, Int.toNat_of_nonneg (by omega : 0 ≤ -a.e)]
      push_cast
      rw [mul_assoc, ← zpow_add₀ (by norm_num : (2 : ℚ) ≠ 0)]
      simp
    have ht : trunc a = if 0 ≤ a.m then a.m / 2 ^ (-a.e).toNat
        else -((-a.m) / 2 ^ (-a.e).toNat) := by
      simp only [trunc, not_le.mpr he, if_false]
    rw [ht]
    generalize (2 : Int) ^ (-a.e).toNat = d at hd hdq hv
    generalize toRat a = v at hv
    by_cases hm : 0 ≤ a.m
    · simp only [hm, if_true]
      have h1 : ((a.m / d : Int) : ℚ) * d ≤ a.m := by
        exact_mod_cast Int.ediv_mul_le a.m (ne_of_gt hd)
      have h2 : (a.m : ℚ) < ((a.m / d : Int) + 1 : ℚ) * d := by
        exact_mod_cast Int.lt_ediv_add_one_mul_self a.m hd
      have h3 : (0 : ℚ) ≤ ((a.m / d : Int) : ℚ) := by
        exact_mod_cast Int.ediv_nonneg hm hd.le
      rw [← hv] at h1 h2
      have h4 := le_of_mul_le_mul_right h1 hdq
      have h5 := lt_of_mul_lt_mul_right h2 hdq.le
      exact ⟨by linarith, by linarith, fun _ => h4, fun h => by linarith⟩
    · simp only [hm, if_false]
      have h1 : (((-a.m) / d : Int) : ℚ) * d ≤ ((-a.m : Int) : ℚ) := by
        exact_mod_cast Int.ediv_mul_le (-a.m) (ne_of_gt hd)
      have h2 : ((-a.m : Int) : ℚ) < (((-a.m) / d : Int) + 1 : ℚ) * d := by
        exact_mod_cast Int.lt_ediv_add_one_mul_self (-a.m) hd
      have hneg : ((-a.m : Int) : ℚ) = (-v) * d := by
        rw [Int.cast_neg, ← hv]
        ring
      rw [hneg] at h1 h2
      have h4 := le_of_mul_le_mul_right h1 hdq
      have h5 := lt_of_mul_lt_mul_right h2 hdq.le
      have hvneg : v < 0 := by
        have : v * d < 0 := by
          rw [hv]
          exact_mod_cast (not_le.mp hm)
        by_contra hc
        push_neg at hc
        have := mul_nonneg hc hdq.le
        linarith
      push_cast
      exact ⟨by linarith, by linarith, fun h => by linarith, fun _ => by linarith⟩

end Dyadic

/-! ## Accuracy of `_micros64tv` -/

theorem lit_1em6_nearest :
    2 ^ 52 ≤ lit_1em6.m ∧ lit_1em6.m < 2 ^ 53 ∧ lit_1em6.e = -72 ∧
    2 * |1000000 * lit_1em6.m - 2 ^ 72| < 1000000 := by
  decide

theorem toRat_lit_1em6 : toRat lit_1em6 = 4722366482869645 / 4722366482869645213696 := by
  simp only [toRat, lit_1em6]
  norm_num

theorem round53_ofInt (n : Int) (h : n.natAbs < 2 ^ 53) : round53 (ofInt n) = ofInt n :=
  round53_exact _ h (by simp [ofInt])

theorem seconds_err (t : Timeval) (hs : 0 ≤ t.tv_sec) (hs' : t.tv_sec < 2 ^ 31)
    (hu : 0 ≤ t.tv_usec) (hu' : t.tv_usec < 1000000) :
    |toRat (seconds t) - ((t.tv_sec : ℚ) + (t.tv_usec : ℚ) / 1000000)|
      ≤ 1 / 8388608 + 1 / 1000000000000 := by
  have hsq : (0 : ℚ) ≤ t.tv_sec := by exact_mod_cast hs
  have hsq' : (t.tv_sec : ℚ) ≤ 2147483647 := by
    have : t.tv_sec ≤ 2147483647 := by omega
    exact_mod_cast this
  have huq : (0 : ℚ) ≤ t.tv_usec := by exact_mod_cast hu
  have huq' : (t.tv_usec : ℚ) ≤ 999999 := by
    have : t.tv_usec ≤ 999999 := by omega
    exact_mod_cast this
  have e1 : round53 (ofInt t.tv_sec) = ofInt t.tv_sec := round53_ofInt _ (by omega)
  have e2 : round53 (ofInt t.tv_usec) = ofInt t.tv_usec := round53_ofInt _ (by omega)
  have hP : toRat (mul (ofInt t.tv_usec) lit_1em6)
      = (t.tv_usec : ℚ) * (4722366482869645 / 4722366482869645213696) := by
    rw [toRat_mul, toRat_ofInt, toRat_lit_1em6]
  have hp := round53_err (mul (ofInt t.tv_usec) lit_1em6) 0 (by norm_num) (by
    rw [hP, abs_lt]
    norm_num
    constructor <;> linarith)
  rw [hP] at hp
  have hp' := abs_le.mp hp
  norm_num at hp'
  have hS : toRat (add (ofInt t.tv_sec) (round53 (mul (ofInt t.tv_usec) lit_1em6)))
      = (t.tv_sec : ℚ) + toRat (round53 (mul (ofInt t.tv_usec) lit_1em6)) := by
    rw [toRat_add, toRat_ofInt]
  have hb := round53_err
    (add (ofInt t.tv_sec) (round53 (mul (ofInt t.tv_usec) lit_1em6))) 31 (by norm_num) (by
    rw [hS, abs_lt]
    norm_num
    constructor <;> linarith [hp'.1, hp'.2])
  rw [hS] at hb
  have hb' := abs_le.mp hb
  norm_num at hb'
  unfold seconds
  rw [e1, e2, abs_le]
  constructor <;> linarith [hp'.1, hp'.2, hb'.1, hb'.2]


theorem micros64tv_value_err (rs ru cs cu : Int)
    (hrs : 0 ≤ rs) (hrs' : rs < 2 ^ 31) (hru : 0 ≤ ru) (hru' : ru < 1000000)
    (hcs : 0 ≤ cs) (hcs' : cs < 2 ^ 31) (hcu : 0 ≤ cu) (hcu' : cu < 1000000)
    (hE : 0 ≤ (cs - rs) * 1000000 + (cu - ru)) :
    |toRat (round53 (mul lit_1e6 (round53 (sub (seconds ⟨cs, cu⟩) (seconds ⟨rs, ru⟩)))))
        - (((cs - rs) * 1000000 + (cu - ru) : Int) : ℚ)| ≤ 1 / 2 := by
  have hc := abs_le.mp (seconds_err ⟨cs, cu⟩ hcs hcs' hcu hcu')
  have hr := abs_le.mp (seconds_err ⟨rs, ru⟩ hrs hrs' hru hru')
  simp only at hc hr
  have hEq : (0 : ℚ) ≤ ((cs : ℚ) - rs) * 1000000 + ((cu : ℚ) - ru) := by
    exact_mod_cast hE
  have q1 : (0 : ℚ) ≤ rs := by exact_mod_cast hrs
  have q2 : (cs : ℚ) ≤ 2147483647 := by
    have : cs ≤ 2147483647 := by omega
    exact_mod_cast this
  have q3 : (0 : ℚ) ≤ ru := by exact_mod_cast hru
  have q4 : (cu : ℚ) ≤ 999999 := by
    have : cu ≤ 999999 := by omega
    exact_mod_cast this
  have hD : toRat (sub (seconds ⟨cs, cu⟩) (seconds ⟨rs, ru⟩))
      = toRat (seconds ⟨cs, cu⟩) - toRat (seconds ⟨rs, ru⟩) := toRat_sub _ _
  have hd := round53_err (sub (seconds ⟨cs, cu⟩) (seconds ⟨rs, ru⟩)) 31 (by norm_num) (by
    rw [hD, abs_lt]
    norm_num
    constructor <;> linarith [hc.1, hc.2, hr.1, hr.2])
  rw [hD] at hd
  have hd' := abs_le.mp hd
  norm_num at hd'
  have hM : toRat (mul lit_1e6 (round53 (sub (seconds ⟨cs, cu⟩) (seconds ⟨rs, ru⟩))))
      = 1000000 * toRat (round53 (sub (seconds ⟨cs, cu⟩) (seconds ⟨rs, ru⟩))) := by
    rw [toRat_mul, lit_1e6, toRat_ofInt]
    norm_num
  have hm := round53_err
    (mul lit_1e6 (round53 (sub (seconds ⟨cs, cu⟩) (seconds ⟨rs, ru⟩)))) 51 (by norm_num) (by
    rw [hM, abs_lt]
    norm_num
    constructor <;> linarith [hc.1, hc.2, hr.1, hr.2, hd'.1, hd'.2])
  rw [hM] at hm
  have hm' := abs_le.mp hm
  norm_num at hm'
  rw [abs_le]
  push_cast
  constructor <;> linarith [hc.1, hc.2, hr.1, hr.2, hd'.1, hd'.2, hm'.1, hm'.2]

theorem toUInt64_of_near (a : Dyadic) (E : Int) (h0 : 0 ≤ E) (hE : E < 2 ^ 63)
    (h : |toRat a - (E : ℚ)| ≤ 1 / 2) :
    ∃ r : Nat, toUInt64 a = some r ∧ ((r : Int) = E ∨ (r : Int) + 1 = E) := by
  obtain ⟨t1, t2, t3, t4⟩ := trunc_bounds a
  obtain ⟨h1, h2⟩ := abs_le.mp h
  have hup : trunc a ≤ E := by
    have : (trunc a : ℚ) < (E : ℚ) + 1 := by
      rcases le_total 0 (toRat a) with hp | hn
      · linarith [t3 hp]
      · have : (0 : ℚ) ≤ E := by exact_mod_cast h0
        linarith
    have : trunc a < E + 1 := by exact_mod_cast this
    omega
  have hlow : E - 1 ≤ trunc a ∧ 0 ≤ trunc a := by
    rcases le_total 0 (toRat a) with hp | hn
    · have ha : (E : ℚ) - 2 < trunc a := by linarith
      have hb : (-1 : ℚ) < trunc a := by linarith
      have ha' : E - 2 < trunc a := by exact_mod_cast ha
      have hb' : -1 < trunc a := by exact_mod_cast hb
      constructor <;> omega
    · have hz : (E : ℚ) ≤ 1 / 2 := by linarith
      have hz' : (E : ℚ) < 1 := by linarith
      have hz'' : E < 1 := by exact_mod_cast hz'
      have hq0 : (0 : ℚ) ≤ E := by exact_mod_cast h0
      have hb : (-1 : ℚ) < trunc a := by linarith [t4 hn]
      have hb' : -1 < trunc a := by exact_mod_cast hb
      constructor <;> omega
  refine ⟨(trunc a).toNat, ?_, ?_⟩
  · unfold toUInt64
    simp only
    rw [if_pos]
    exact ⟨hlow.2, by omega⟩
  · rw [Int.toNat_of_nonneg hlow.2]
    omega


/-- C6, the claim fails: with reference `{0, 0}` and sample `{0, 15}` the
exact difference is 15 microseconds and `_micros64tv` returns 14; with
reference `{1700000000, 0}` and sample `{1700000000, 1}` the exact difference
is 1 and it returns 0. -/
theorem micros64tv_counterexample :
    _micros64tv ⟨0, 0⟩ ⟨0, 15⟩ = some 14 ∧
    _micros64tv ⟨1700000000, 0⟩ ⟨1700000000, 1⟩ = some 0 := by
  decide

/-- C6, amended: for a reference `{rs, ru}` and a sample `{cs, cu}` with
seconds in `[0, 2 ^ 31)` and microseconds in `[0, 1000000)`, the sample not
earlier than the reference, `_micros64tv` takes the difference in binary64
arithmetic and returns `(cs - rs) * 1000000 + (cu - ru)` or one less; for
reference `{10, 0}` and sample `{70, 0}` it returns exactly 60,000,000, and
for reference `{10, 500000}` and sample `{11, 400000}` exactly 900,000. -/
theorem micros64tv_within_one (rs ru cs cu : Int)
    (hrs : 0 ≤ rs) (hrs' : rs < 2 ^ 31) (hru : 0 ≤ ru) (hru' : ru < 1000000)
    (hcs : 0 ≤ cs) (hcs' : cs < 2 ^ 31) (hcu : 0 ≤ cu) (hcu' : cu < 1000000)
    (hE : 0 ≤ (cs - rs) * 1000000 + (cu - ru)) :
    (∃ r : Nat, _micros64tv ⟨rs, ru⟩ ⟨cs, cu⟩ = some r ∧
      ((r : Int) = (cs - rs) * 1000000 + (cu - ru) ∨
        (r : Int) + 1 = (cs - rs) * 1000000 + (cu - ru))) ∧
    _micros64tv ⟨10, 0⟩ ⟨70, 0⟩ = some 60000000 ∧
    _micros64tv ⟨10, 500000⟩ ⟨11, 400000⟩ = some 900000 := by
  refine ⟨?_, by decide, by decide⟩
  have herr := micros64tv_value_err rs ru cs cu hrs hrs' hru hru' hcs hcs' hcu hcu' hE
  exact toUInt64_of_near _ _ hE (by omega) herr

theorem micros64tv_within_one_witness :
    ∃ r : Nat, _micros64tv ⟨1700000000, 999999⟩ ⟨1700000061, 15⟩ = some r ∧
      ((r : Int) = (1700000061 - 1700000000) * 1000000 + (15 - 999999) ∨
        (r : Int) + 1 = (1700000061 - 1700000000) * 1000000 + (15 - 999999)) :=
  (micros64tv_within_one 1700000000 999999 1700000061 15
    (by decide) (by decide) (by decide) (by decide)
    (by decide) (by decide) (by decide) (by decide) (by decide)).1


theorem micros64tv_mono (ref tp tp' : Timeval) (hr : ref.inRange) (ht : tp.inRange)
    (ht' : tp'.inRange) (h1 : ref.micros ≤ tp.micros) (h2 : tp.micros ≤ tp'.micros) :
    ∃ n n' : Nat, _micros64tv ref tp = some n ∧ _micros64tv ref tp' = some n' ∧
      n ≤ n' ∧ n' < 2 ^ 64 := by
  obtain ⟨rs, ru⟩ := ref
  obtain ⟨cs, cu⟩ := tp
  obtain ⟨ds, du⟩ := tp'
  simp only [Timeval.inRange, Timeval.micros] at hr ht ht' h1 h2
  obtain ⟨hr1, hr2, hr3, hr4⟩ := hr
  obtain ⟨ht1, ht2, ht3, ht4⟩ := ht
  obtain ⟨hd1, hd2, hd3, hd4⟩ := ht'
  have hn := toUInt64_of_near _ _ (by omega : 0 ≤ (cs - rs) * 1000000 + (cu - ru))
    (by omega) (micros64tv_value_err rs ru cs cu hr1 hr2 hr3 hr4 ht1 ht2 ht3 ht4 (by omega))
  have hn' := toUInt64_of_near _ _ (by omega : 0 ≤ (ds - rs) * 1000000 + (du - ru))
    (by omega) (micros64tv_value_err rs ru ds du hr1 hr2 hr3 hr4 hd1 hd2 hd3 hd4 (by omega))
  obtain ⟨n, hn1, hn2⟩ := hn
  obtain ⟨n', hn1', hn2'⟩ := hn'
  refine ⟨n, n', hn1, hn1', ?_, by omega⟩
  by_cases heq : cs * 1000000 + cu = ds * 1000000 + du
  · have hs : cs = ds := by omega
    have hu : cu = du := by omega
    subst hs
    subst hu
    have : some n = some n' := by rw [← hn1, ← hn1']
    exact le_of_eq (Option.some.inj this)
  · omega

/-! ## The threshold test -/

theorem due_iff_of_le (st now1 : Nat) (h : st ≤ now1) (hlt : now1 < 2 ^ 64) :
    due now1 st = true ↔ threshold < now1 - st := by
  have : (now1 + 2 ^ 64 - st) % 2 ^ 64 = now1 - st := by
    have e : now1 + 2 ^ 64 - st = (now1 - st) + 2 ^ 64 := by omega
    rw [e, Nat.add_mod_right]
    exact Nat.mod_eq_of_lt (by omega)
  simp only [due, decide_eq_true_eq, this]

theorem fire_isr_timer_looping (s : State) (tp1 tp2 : Timeval) (st now1 now2 : Nat)
    (hsw : s.sw = true) (h1 : _micros64tv s.start_time tp1 = some now1)
    (h2 : _micros64tv s.start_time tp2 = some now2) :
    _fire_isr_timer tp1 tp2 s (LoopThread.looping st)
      = some (LoopThread.looping (loop_body st now1 now2).1,
          { s with broadcasts := s.broadcasts
              + if (loop_body st now1 now2).2 = true then 1 else 0 }) := by
  by_cases hd : due now1 st = true
  · simp [_fire_isr_timer, loop_body, hsw, h1, h2, hd]
  · obtain ⟨r, w, ref, thr, n⟩ := s
    simp only at hsw h1
    subst hsw
    simp [_fire_isr_timer, loop_body, h1, hd]

/-- C7, the claim fails: with reference `{10, 0}`, sample `{70, 0}` and
`start_time = 0`, `_micros64tv` gives exactly 60,000,000, the test of line 70
is false, and the iteration makes no `system` call. -/
theorem exact_threshold_counterexample :
    _micros64tv ⟨10, 0⟩ ⟨70, 0⟩ = some 60000000 ∧
    due 60000000 0 = false ∧
    step ⟨true, true, ⟨10, 0⟩, [LoopThread.looping 0], 0⟩
        (Action.loop 0 ⟨70, 0⟩ ⟨70, 0⟩)
      = some ⟨true, true, ⟨10, 0⟩, [LoopThread.looping 0], 0⟩ := by
  decide

/-- C7, amended: an iteration that samples an elapsed time of exactly
60,000,000 microseconds since the last fire does not perform the wake-up
action; it performs it exactly when the elapsed time since the last fire is
more than 60,000,000 microseconds, as at 60,000,001. -/
theorem fires_only_above_threshold (start_time now1 now2 : Nat)
    (h : start_time ≤ now1) (hlt : now1 < 2 ^ 64) :
    ((loop_body start_time now1 now2).2 = true ↔ 60000000 < now1 - start_time) ∧
    loop_body start_time (start_time + 60000000) now2 = (start_time, false) ∧
    loop_body 0 60000000 now2 = (0, false) ∧
    loop_body 0 60000001 now2 = (now2, true) ∧
    step ⟨true, true, ⟨10, 0⟩, [LoopThread.looping 0], 0⟩
        (Action.loop 0 ⟨70, 0⟩ ⟨70, 0⟩)
      = some ⟨true, true, ⟨10, 0⟩, [LoopThread.looping 0], 0⟩ := by
  have hiff := due_iff_of_le start_time now1 h hlt
  have hself : due (start_time + 60000000) start_time = false := by
    have e : (start_time + 60000000 + 2 ^ 64 - start_time) % 2 ^ 64 = 60000000 := by
      have e' : start_time + 60000000 + 2 ^ 64 - start_time = 60000000 + 2 ^ 64 := by
        omega
      rw [e', Nat.add_mod_right]
      decide
    simp only [due, e, threshold, lt_self_iff_false, decide_False]
  have hz : due 60000000 0 = false := by decide
  refine ⟨?_, ?_, by simp [loop_body, hz], ?_, by decide⟩
  · unfold loop_body
    by_cases hd : due now1 start_time = true
    · simp only [hd, if_true, true_iff]
      exact hiff.mp hd
    · have : ¬ threshold < now1 - start_time := fun h' => hd (hiff.mpr h')
      simp only [hd, Bool.false_eq_true, if_false, false_iff]
      exact this
  · simp [loop_body, hself]
  · have : due 60000001 0 = true := by decide
    simp [loop_body, this]

theorem fires_only_above_threshold_witness :
    (5 : Nat) ≤ 60000006 ∧ ((loop_body 5 60000006 60000009).2 = true ↔
      60000000 < 60000006 - 5) :=
  ⟨by decide, (fires_only_above_threshold 5 60000006 60000009 (by decide) (by decide)).1⟩

theorem loop_run_spaced : ∀ (es : List (Nat × Nat)) (st : Nat),
    (∀ n ∈ samples es, st ≤ n ∧ n < 2 ^ 64) →
    List.Sorted (· ≤ ·) (samples es) →
    List.Chain' (fun a b : Nat × Nat => a.2 + threshold < b.1 ∧ b.1 ≤ b.2)
        (loop_run st es) ∧
      ∀ f ∈ (loop_run st es).head?, st + threshold < f.1 ∧ f.1 ≤ f.2
  | [], st, _, _ => by simp [loop_run]
  | (now1, now2) :: rest, st, hb, hs => by
    simp only [samples, List.sorted_cons, List.mem_cons] at hs
    obtain ⟨h1, h2, h3⟩ := hs
    have hb1 := hb now1 (by simp [samples])
    have hrest : ∀ n ∈ samples rest, n < 2 ^ 64 :=
      fun n hn => (hb n (by simp [samples, hn])).2
    by_cases hd : due now1 st = true
    · have ih := loop_run_spaced rest now2
        (fun n hn => ⟨h2 n hn, hrest n hn⟩) h3
      have hgt := (due_iff_of_le st now1 hb1.1 hb1.2).mp hd
      simp only [loop_run, hd, if_true]
      refine ⟨List.chain'_cons'.mpr ⟨fun y hy => ih.2 y hy, ih.1⟩, ?_⟩
      intro f hf
      simp only [List.head?_cons, Option.mem_def, Option.some.injEq] at hf
      subst hf
      simp only
      exact ⟨by omega, h1 now2 (Or.inl rfl)⟩
    · have ih := loop_run_spaced rest st
        (fun n hn => ⟨(hb n (by simp [samples, hn])).1, hrest n hn⟩) h3
      simp only [loop_run, hd, Bool.false_eq_true, if_false]
      exact ih

/-- C8: in a run of the loop whose elapsed-time samples never decrease, an
iteration performs the wake-up action only if the sample minus `start_time`
is more than 60,000,000, and then stores the current elapsed time in
`start_time`, which otherwise stays; so in the run from `start_time = 0` each
fire tests a sample more than 60,000,000 above the value stored by the fire
before it, the first fire tests a sample above 60,000,000, and a sample of
900,000 with `start_time = 0` does not fire.  The elapsed-time samples never
decrease when the clock readings never decrease from the reference on. -/
theorem fires_at_most_once_per_window (es : List (Nat × Nat))
    (hbound : ∀ n ∈ samples es, n < 2 ^ 64)
    (hmono : List.Sorted (· ≤ ·) (samples es)) :
    (∀ st now1 now2 : Nat, st ≤ now1 → now1 < 2 ^ 64 →
      ((loop_body st now1 now2).2 = true → 60000000 < now1 - st) ∧
      (loop_body st now1 now2).1
        = if (loop_body st now1 now2).2 = true then now2 else st) ∧
    List.Chain' (fun a b : Nat × Nat => a.2 + 60000000 < b.1 ∧ b.1 ≤ b.2)
      (loop_run 0 es) ∧
    (∀ f ∈ (loop_run 0 es).head?, 60000000 < f.1 ∧ f.1 ≤ f.2) ∧
    (∀ now2 : Nat, loop_body 0 900000 now2 = (0, false)) ∧
    ∀ ref tp tp' : Timeval, ref.inRange → tp.inRange → tp'.inRange →
      ref.micros ≤ tp.micros → tp.micros ≤ tp'.micros →
      ∃ n n' : Nat, _micros64tv ref tp = some n ∧ _micros64tv ref tp' = some n' ∧
        n ≤ n' ∧ n' < 2 ^ 64 := by
  have hsp := loop_run_spaced es 0 (fun n hn => ⟨Nat.zero_le _, hbound n hn⟩) hmono
  refine ⟨?_, hsp.1, ?_, ?_, micros64tv_mono⟩
  · intro st now1 now2 hle hlt
    have hiff := due_iff_of_le st now1 hle hlt
    unfold loop_body
    by_cases hd : due now1 st = true
    · simp only [hd, if_true, true_implies, and_true]
      exact hiff.mp hd
    · simp [hd]
  · intro f hf
    have := hsp.2 f hf
    simp only [threshold] at this
    exact ⟨by omega, this.2⟩
  · intro now2
    have : due 900000 0 = false := by decide
    simp [loop_body, this]

theorem fires_at_most_once_per_window_witness :
    List.Sorted (· ≤ ·)
      (samples [(1000000, 1000001), (60000000, 60000000), (61000007, 61000009),
        (121000009, 121000009), (121000010, 121000012), (183000000, 183000005)]) ∧
    loop_run 0 [(1000000, 1000001), (60000000, 60000000), (61000007, 61000009),
        (121000009, 121000009), (121000010, 121000012), (183000000, 183000005)]
      = [(61000007, 61000009), (121000010, 121000012), (183000000, 183000005)] ∧
    List.Chain' (fun a b : Nat × Nat => a.2 + 60000000 < b.1 ∧ b.1 ≤ b.2)
      (loop_run 0 [(1000000, 1000001), (60000000, 60000000), (61000007, 61000009),
        (121000009, 121000009), (121000010, 121000012), (183000000, 183000005)]) :=
  ⟨by decide, by decide,
    (fires_at_most_once_per_window
      [(1000000, 1000001), (60000000, 60000000), (61000007, 61000009),
        (121000009, 121000009), (121000010, 121000012), (183000000, 183000005)]
      (by decide) (by decide)).2.1⟩

/-- C10: the test of line 70 subtracts in `uint64_t`; when the elapsed sample
`E` is below `start_time = L` and `L - E < 2 ^ 64 - 60000000`, the difference
`(E - L) mod 2 ^ 64` is above 60,000,000 and the iteration performs the
wake-up action, however little time has passed since the last fire. -/
theorem backward_clock_fires (L E now2 : Nat) (hL : L < 2 ^ 64) (hE : E < L)
    (hd : L - E < 2 ^ 64 - 60000000) :
    60000000 < (E + 2 ^ 64 - L) % 2 ^ 64 ∧ due E L = true ∧
      loop_body L E now2 = (now2, true) := by
  have hmod : (E + 2 ^ 64 - L) % 2 ^ 64 = E + 2 ^ 64 - L :=
    Nat.mod_eq_of_lt (by omega)
  have h1 : 60000000 < (E + 2 ^ 64 - L) % 2 ^ 64 := by
    rw [hmod]
    omega
  have h2 : due E L = true := by
    simp only [due, decide_eq_true_eq, threshold]
    exact h1
  exact ⟨h1, h2, by simp [loop_body, h2]⟩

theorem backward_clock_fires_witness :
    (61000000 : Nat) < 61000001 ∧ loop_body 61000001 61000000 61000002
      = (61000002, true) :=
  ⟨by decide, (backward_clock_fires 61000001 61000000 61000002
    (by decide) (by decide) (by decide)).2.2⟩

end Logmon
